import Mathlib

/-!
Verification of the `mc2` revision-versioned key/value store and its
per-client write-through cache (`src/store.rs`), together with the
result-aggregation logic of the scenario runner (`src/runner.rs`).

The Rust `BTreeMap<String, _>` is embedded as an association list kept in
ascending key order by its insertion function, so that `keys` is the
ascending key iteration.  Machine integers (`usize` revisions and the `seq`
counter) are embedded as `Nat`.  Mutating methods become functions that
return the updated value alongside the result.
-/

namespace MC2

/-- Lexicographic order on character lists by scalar value.  This is the
order `BTreeMap<String, _>` iterates in: Rust compares UTF-8 byte strings,
and UTF-8 preserves the order of the scalar values. -/
def charsLt : List Char → List Char → Bool
  | [], [] => false
  | [], _ :: _ => true
  | _ :: _, [] => false
  | a :: as, b :: bs =>
    if a.toNat < b.toNat then true
    else if b.toNat < a.toNat then false
    else charsLt as bs

/-- The `BTreeMap` key order on strings. -/
def strLt (a b : String) : Bool := charsLt a.data b.data

/-- Lookup in an association list (`BTreeMap::get`). -/
def alGet (key : String) : List (String × α) → Option α
  | [] => none
  | (k, e) :: rest => if key = k then some e else alGet key rest

/-- Insert-or-replace in an association list, keeping keys in ascending
order (`BTreeMap::insert` / the `entry` API's final write). -/
def alSet (key : String) (e : α) : List (String × α) → List (String × α)
  | [] => [(key, e)]
  | (k, e') :: rest =>
    if strLt key k then (key, e) :: (k, e') :: rest
    else if key = k then (key, e) :: rest
    else (k, e') :: alSet key e rest

/-- Delete a key from an association list (`BTreeMap::remove`). -/
def alRemove (key : String) : List (String × α) → List (String × α)
  | [] => []
  | (k, e') :: rest => if key = k then rest else (k, e') :: alRemove key rest

/-- A store entry: the revision together with the optional value
(`(Rev, Option<T>)`); value `none` with positive revision is a tombstone. -/
abbrev Entry (T : Type) := Nat × Option T

/-- `Store<T>` from `src/store.rs`: a key-ordered map from string keys to
entries, plus the global successful-mutation counter `seq`. -/
structure Store (T : Type) where
  data : List (String × Entry T)
  seq : Nat
deriving DecidableEq

/-- `Store::new`. -/
def Store.new (T : Type) : Store T := ⟨[], 0⟩

/-- `Store::read`: current revision and value, `none` if the key is absent
or tombstoned. -/
def Store.read (s : Store T) (key : String) : Option (Nat × T) :=
  match alGet key s.data with
  | some (rev, some value) => some (rev, value)
  | _ => none

/-- `Store::set_key`: the shared implementation of `write` and `remove`.
The Rust code first materialises the entry with `entry(key).or_insert((0,
None))`, then compares revisions; on mismatch it returns `None` leaving the
(possibly freshly inserted) entry in place, on match it bumps the revision,
stores the value and increments `seq`. -/
def Store.set_key (s : Store T) (key : String) (rev : Option Nat) (value : Option T) :
    Option Nat × Store T :=
  let clientRev := rev.getD 0
  let entry := (alGet key s.data).getD (0, none)
  if entry.fst ≠ clientRev then
    (none, { s with data := alSet key entry s.data })
  else
    (some (entry.fst + 1), ⟨alSet key (entry.fst + 1, value) s.data, s.seq + 1⟩)

/-- `Store::write`. -/
def Store.write (s : Store T) (key : String) (rev : Option Nat) (value : T) :
    Option Nat × Store T :=
  s.set_key key rev (some value)

/-- `Store::remove`. -/
def Store.remove (s : Store T) (key : String) (rev : Option Nat) :
    Option Nat × Store T :=
  s.set_key key rev none

/-- `Store::keys`: ascending iteration over all keys ever written. -/
def Store.keys (s : Store T) : List String := s.data.map Prod.fst

/-- The revision the store holds for a key, a missing key counting as
revision 0 (how `set_key` reads the current revision). -/
def Store.revOf (s : Store T) (key : String) : Nat :=
  ((alGet key s.data).getD (0, none)).fst

/-- `Cache<T>` from `src/store.rs`: the per-client local map from key to
"last observed `(rev, value)` record or tombstone record `none`".  The
shared store is passed explicitly instead of through the `RefCell`. -/
structure Cache (T : Type) where
  data : List (String × Option (Nat × T))
deriving DecidableEq

/-- `Cache::new`. -/
def Cache.new (T : Type) : Cache T := ⟨[]⟩

/-- `Cache::read`: fetch and record the store's `(rev, value)` on a local
miss, then answer from the local record. -/
def Cache.read (c : Cache T) (s : Store T) (key : String) : Option T × Cache T :=
  let c' : Cache T :=
    if (alGet key c.data).isSome then c
    else ⟨alSet key (s.read key) c.data⟩
  match alGet key c'.data with
  | some (some (_, value)) => (some value, c')
  | _ => (none, c')

/-- `Cache::get_rev`: the locally remembered revision; `none` for a miss
record, a tombstone record, or an unknown key. -/
def Cache.get_rev (c : Cache T) (key : String) : Option Nat :=
  match alGet key c.data with
  | some (some (rev, _)) => some rev
  | _ => none

/-- `Cache::write`: present the locally remembered revision to the store;
install the new record on success, evict the key on conflict. -/
def Cache.write (c : Cache T) (s : Store T) (key : String) (value : T) :
    Bool × Store T × Cache T :=
  let oldRev := c.get_rev key
  match s.write key oldRev value with
  | (some newRev, s') => (true, s', ⟨alSet key (some (newRev, value)) c.data⟩)
  | (none, s') => (false, s', ⟨alRemove key c.data⟩)

/-- `Cache::remove`: like `write`, but on success the local record becomes
the bare tombstone `none`. -/
def Cache.remove (c : Cache T) (s : Store T) (key : String) :
    Bool × Store T × Cache T :=
  let oldRev := c.get_rev key
  match s.remove key oldRev with
  | (some _, s') => (true, s', ⟨alSet key none c.data⟩)
  | (none, s') => (false, s', ⟨alRemove key c.data⟩)

/-! ### Association-list lemmas

`KeySorted` is the representation invariant of the embedded `BTreeMap`:
keys strictly ascend, so in particular no key repeats.  Every map reachable
through the operations above satisfies it. -/

theorem charsLt_irrefl (l : List Char) : charsLt l l = false := by
  induction l with
  | nil => rfl
  | cons a as ih => simp [charsLt, ih]

theorem charsLt_asymm {l₁ l₂ : List Char} (h : charsLt l₁ l₂ = true) :
    charsLt l₂ l₁ = false := by
  induction l₁ generalizing l₂ with
  | nil =>
    cases l₂ with
    | nil => simp [charsLt] at h
    | cons b bs => rfl
  | cons a as ih =>
    cases l₂ with
    | nil => simp [charsLt] at h
    | cons b bs =>
      rw [charsLt] at h ⊢
      by_cases hab : a.toNat < b.toNat
      · simp [hab, Nat.lt_asymm hab]
      · by_cases hba : b.toNat < a.toNat
        · simp [hab, hba] at h
        · simp only [if_neg hab, if_neg hba] at h
          simp [hab, hba, ih h]

theorem charsLt_trans {l₁ l₂ l₃ : List Char} (h₁ : charsLt l₁ l₂ = true)
    (h₂ : charsLt l₂ l₃ = true) : charsLt l₁ l₃ = true := by
  induction l₁ generalizing l₂ l₃ with
  | nil =>
    cases l₂ with
    | nil => simp [charsLt] at h₁
    | cons b bs =>
      cases l₃ with
      | nil => simp [charsLt] at h₂
      | cons c cs => rfl
  | cons a as ih =>
    cases l₂ with
    | nil => simp [charsLt] at h₁
    | cons b bs =>
      cases l₃ with
      | nil => simp [charsLt] at h₂
      | cons c cs =>
        rw [charsLt] at h₁ h₂ ⊢
        by_cases hab : a.toNat < b.toNat
        · by_cases hbc : b.toNat < c.toNat
          · simp [Nat.lt_trans hab hbc]
          · by_cases hcb : c.toNat < b.toNat
            · simp [hbc, hcb] at h₂
            · have hbceq : b.toNat = c.toNat := Nat.le_antisymm
                (Nat.not_lt.mp hcb) (Nat.not_lt.mp hbc)
              simp [hbceq ▸ hab]
        · by_cases hba : b.toNat < a.toNat
          · simp [hab, hba] at h₁
          · have habeq : a.toNat = b.toNat := Nat.le_antisymm
              (Nat.not_lt.mp hba) (Nat.not_lt.mp hab)
            simp only [if_neg hab, if_neg hba] at h₁
            by_cases hbc : b.toNat < c.toNat
            · simp [habeq ▸ hbc]
            · by_cases hcb : c.toNat < b.toNat
              · simp [hbc, hcb] at h₂
              · simp only [if_neg hbc, if_neg hcb] at h₂
                have hac : ¬ a.toNat < c.toNat := by omega
                have hca : ¬ c.toNat < a.toNat := by omega
                simp [hac, hca, ih h₁ h₂]

theorem charsLt_connex {l₁ l₂ : List Char} (h₁ : charsLt l₁ l₂ = false)
    (h₂ : charsLt l₂ l₁ = false) : l₁ = l₂ := by
  induction l₁ generalizing l₂ with
  | nil =>
    cases l₂ with
    | nil => rfl
    | cons b bs => simp [charsLt] at h₁
  | cons a as ih =>
    cases l₂ with
    | nil => simp [charsLt] at h₂
    | cons b bs =>
      rw [charsLt] at h₁ h₂
      by_cases hab : a.toNat < b.toNat
      · simp [hab] at h₁
      · by_cases hba : b.toNat < a.toNat
        · simp [hab, hba] at h₂
        · simp only [if_neg hab, if_neg hba] at h₁ h₂
          have hval : a.toNat = b.toNat := Nat.le_antisymm
            (Nat.not_lt.mp hba) (Nat.not_lt.mp hab)
          have hchar : a = b := Char.eq_of_val_eq (UInt32.toNat.inj hval)
          rw [hchar, ih h₁ h₂]

theorem strLt_irrefl (a : String) : strLt a a = false := charsLt_irrefl a.data

theorem strLt_asymm {a b : String} (h : strLt a b = true) : strLt b a = false :=
  charsLt_asymm h

theorem strLt_trans {a b c : String} (h₁ : strLt a b = true)
    (h₂ : strLt b c = true) : strLt a c = true :=
  charsLt_trans h₁ h₂

theorem strLt_connex {a b : String} (h₁ : strLt a b = false)
    (h₂ : strLt b a = false) : a = b := by
  cases a with
  | mk da =>
    cases b with
    | mk db => exact congrArg String.mk (charsLt_connex h₁ h₂)

theorem strLt_ne {a b : String} (h : strLt a b = true) : a ≠ b := by
  intro heq
  rw [heq, strLt_irrefl] at h
  exact Bool.false_ne_true h

/-- The `BTreeMap` representation invariant: strictly ascending keys. -/
def KeySorted (l : List (String × α)) : Prop :=
  l.Pairwise (fun a b => strLt a.fst b.fst = true)

instance {α : Type*} (l : List (String × α)) : Decidable (KeySorted l) :=
  List.instDecidablePairwise l

theorem alGet_eq_none {α : Type*} {key : String} {l : List (String × α)}
    (h : ∀ p ∈ l, key ≠ p.fst) : alGet key l = none := by
  induction l with
  | nil => rfl
  | cons hd tl ih =>
    simp only [alGet, if_neg (h hd (List.mem_cons_self hd tl))]
    exact ih fun p hp => h p (List.mem_cons_of_mem hd hp)

theorem mem_fst_of_alGet (h : alGet key l = some e) : key ∈ l.map Prod.fst := by
  induction l with
  | nil => simp [alGet] at h
  | cons hd tl ih =>
    obtain ⟨k, e'⟩ := hd
    by_cases heq : key = k
    · simp [heq]
    · rw [alGet, if_neg heq] at h
      simpa using Or.inr (ih h)

theorem alGet_alSet_self (key : String) (e : α) (l : List (String × α)) :
    alGet key (alSet key e l) = some e := by
  induction l with
  | nil => simp [alGet, alSet]
  | cons hd tl ih =>
    obtain ⟨k, e'⟩ := hd
    by_cases hlt : strLt key k = true
    · simp [alSet, hlt, alGet]
    · by_cases heq : key = k
      · simp [alSet, hlt, heq, alGet, strLt_irrefl]
      · simp [alSet, hlt, heq, alGet, ih]

theorem alGet_alSet_ne (h : key' ≠ key) (e : α) (l : List (String × α)) :
    alGet key' (alSet key e l) = alGet key' l := by
  induction l with
  | nil => simp [alGet, alSet, h]
  | cons hd tl ih =>
    obtain ⟨k, e'⟩ := hd
    by_cases hlt : strLt key k = true
    · simp only [alSet, if_pos hlt]
      simp [alGet, h]
    · by_cases heq : key = k
      · subst heq
        simp [alSet, hlt, alGet, h]
      · simp only [alSet, if_neg hlt, if_neg heq]
        by_cases h2 : key' = k
        · simp [alGet, h2]
        · simp [alGet, h2, ih]

theorem alGet_alRemove_self (hs : KeySorted l) :
    alGet key (alRemove key l) = none := by
  induction l with
  | nil => rfl
  | cons hd tl ih =>
    obtain ⟨k, e'⟩ := hd
    rw [KeySorted, List.pairwise_cons] at hs
    by_cases heq : key = k
    · subst heq
      rw [alRemove, if_pos rfl]
      exact alGet_eq_none fun p hp => strLt_ne (hs.1 p hp)
    · rw [alRemove, if_neg heq, alGet, if_neg heq]
      exact ih hs.2

theorem alGet_alRemove_ne (h : key' ≠ key) (l : List (String × α)) :
    alGet key' (alRemove key l) = alGet key' l := by
  induction l with
  | nil => rfl
  | cons hd tl ih =>
    obtain ⟨k, e'⟩ := hd
    by_cases heq : key = k
    · subst heq
      rw [alRemove, if_pos rfl, alGet, if_neg h]
    · rw [alRemove, if_neg heq, alGet, alGet]
      by_cases h2 : key' = k
      · rw [if_pos h2, if_pos h2]
      · rw [if_neg h2, if_neg h2, ih]

theorem alSet_self (hs : KeySorted l) (h : alGet key l = some e) :
    alSet key e l = l := by
  induction l with
  | nil => simp [alGet] at h
  | cons hd tl ih =>
    obtain ⟨k, e'⟩ := hd
    rw [KeySorted, List.pairwise_cons] at hs
    by_cases heq : key = k
    · subst heq
      rw [alGet, if_pos rfl] at h
      injection h with h
      subst h
      simp [alSet, strLt_irrefl]
    · rw [alGet, if_neg heq] at h
      obtain ⟨p, hp, hpk⟩ := List.mem_map.mp (mem_fst_of_alGet h)
      have hk : strLt k key = true := hpk ▸ hs.1 p hp
      rw [alSet, if_neg (by simp [strLt_asymm hk]), if_neg heq, ih hs.2 h]

theorem mem_keys_alSet (key : String) (e : α) (l : List (String × α)) :
    key ∈ (alSet key e l).map Prod.fst := by
  induction l with
  | nil => simp [alSet]
  | cons hd tl ih =>
    obtain ⟨k, e'⟩ := hd
    by_cases hlt : strLt key k = true
    · simp [alSet, hlt]
    · by_cases heq : key = k
      · simp [alSet, hlt, heq, strLt_irrefl]
      · simp only [alSet, if_neg hlt, if_neg heq, List.map_cons, List.mem_cons]
        exact Or.inr ih

theorem mem_alSet {α : Type*} {p : String × α} {key : String} {e : α}
    {l : List (String × α)} (h : p ∈ alSet key e l) : p = (key, e) ∨ p ∈ l := by
  induction l with
  | nil => simpa [alSet] using h
  | cons hd tl ih =>
    obtain ⟨k, e'⟩ := hd
    by_cases hlt : strLt key k = true
    · rw [alSet, if_pos hlt] at h
      simpa using h
    · by_cases heq : key = k
      · rw [alSet, if_neg hlt, if_pos heq] at h
        rcases List.mem_cons.mp h with h | h
        · exact Or.inl h
        · exact Or.inr (List.mem_cons_of_mem _ h)
      · rw [alSet, if_neg hlt, if_neg heq] at h
        rcases List.mem_cons.mp h with h | h
        · exact Or.inr (h ▸ List.mem_cons_self _ _)
        · rcases ih h with h | h
          · exact Or.inl h
          · exact Or.inr (List.mem_cons_of_mem _ h)

theorem KeySorted.alSet {α : Type*} {l : List (String × α)} (hs : KeySorted l)
    (key : String) (e : α) : KeySorted (MC2.alSet key e l) := by
  induction l with
  | nil => simp [MC2.alSet, KeySorted]
  | cons hd tl ih =>
    obtain ⟨k, e'⟩ := hd
    rw [KeySorted, List.pairwise_cons] at hs
    by_cases hlt : strLt key k = true
    · rw [MC2.alSet, if_pos hlt, KeySorted, List.pairwise_cons]
      refine ⟨?_, List.pairwise_cons.mpr hs⟩
      intro p hp
      rcases List.mem_cons.mp hp with h | h
      · exact h ▸ hlt
      · exact strLt_trans hlt (hs.1 p h)
    · by_cases heq : key = k
      · rw [MC2.alSet, if_neg hlt, if_pos heq, KeySorted, List.pairwise_cons]
        exact ⟨fun p hp => heq ▸ hs.1 p hp, hs.2⟩
      · have hk : strLt k key = true := by
          by_cases h2 : strLt k key = true
          · exact h2
          · exact absurd (strLt_connex (Bool.not_eq_true _ ▸ h2)
              (Bool.not_eq_true _ ▸ hlt)) (Ne.symm heq)
        rw [MC2.alSet, if_neg hlt, if_neg heq, KeySorted, List.pairwise_cons]
        refine ⟨?_, ih hs.2⟩
        intro p hp
        rcases mem_alSet hp with h | h
        · exact h ▸ hk
        · exact hs.1 p h

theorem alRemove_sublist (key : String) (l : List (String × α)) :
    (alRemove key l).Sublist l := by
  induction l with
  | nil => simp [alRemove]
  | cons hd tl ih =>
    obtain ⟨k, e'⟩ := hd
    by_cases heq : key = k
    · rw [alRemove, if_pos heq]
      exact List.sublist_cons_self _ _
    · rw [alRemove, if_neg heq]
      exact ih.cons₂ _

theorem KeySorted.alRemove (hs : KeySorted l) (key : String) :
    KeySorted (alRemove key l) :=
  hs.sublist (alRemove_sublist key l)

/-! ### Characterisation of `Store::set_key` -/

theorem set_key_of_ne {T : Type} {s : Store T} {key : String} {rev : Option Nat}
    {v : Option T} (h : s.revOf key ≠ rev.getD 0) :
    s.set_key key rev v =
      (none, ⟨alSet key ((alGet key s.data).getD (0, none)) s.data, s.seq⟩) := by
  rw [Store.set_key]
  simp only [Store.revOf] at h
  rw [if_pos h]

theorem set_key_of_eq {T : Type} {s : Store T} {key : String} {rev : Option Nat}
    {v : Option T} (h : s.revOf key = rev.getD 0) :
    s.set_key key rev v =
      (some (s.revOf key + 1), ⟨alSet key (s.revOf key + 1, v) s.data, s.seq + 1⟩) := by
  rw [Store.set_key]
  simp only [Store.revOf] at h
  rw [if_neg (not_not.mpr h)]
  rw [Store.revOf]

theorem set_key_fst_none_iff {T : Type} {s : Store T} {key : String}
    {rev : Option Nat} {v : Option T} :
    (s.set_key key rev v).1 = none ↔ s.revOf key ≠ rev.getD 0 := by
  by_cases h : s.revOf key = rev.getD 0
  · rw [set_key_of_eq h]
    simp [h]
  · rw [set_key_of_ne h]
    simp [h]

/-! ### C10: remove leaves the key readable as none but listed in keys -/

/-- Claim C10: for every store and key, after a successful `Store::remove`
the store's `read` of that key returns `none`, while `keys()` still yields
the key in its ascending iteration. -/
theorem remove_read_none_keys_retained {T : Type} (s : Store T) (key : String)
    (rev : Option Nat) (n : Nat) (h : (s.remove key rev).1 = some n) :
    (s.remove key rev).2.read key = none ∧ key ∈ (s.remove key rev).2.keys := by
  by_cases hrev : s.revOf key = rev.getD 0
  · rw [Store.remove, set_key_of_eq hrev]
    constructor
    · simp [Store.read, alGet_alSet_self]
    · simpa [Store.keys] using mem_keys_alSet key _ s.data
  · rw [Store.remove, set_key_of_ne hrev] at h
    simp at h

/-- Witness for C10 at a concrete store: write `"x"` then remove it. -/
theorem remove_read_none_keys_retained_witness :
    ((((Store.new Char).write "x" none 'a').2.remove "x" (some 1)).2.read "x" = none) ∧
    "x" ∈ (((Store.new Char).write "x" none 'a').2.remove "x" (some 1)).2.keys :=
  remove_read_none_keys_retained (((Store.new Char).write "x" none 'a').2) "x"
    (some 1) 2 (by decide)

/-! ### C1: what a conflicting mutation does and does not change

The claim says a conflicting `write`/`remove` leaves the store bit-identical,
including the key set observed by `keys()`.  That fails: `set_key` calls
`entry(key).or_insert((0, None))` before the revision check, so a conflict on
an absent key inserts a `(0, none)` placeholder that `keys()` reports. -/

/-- Counterexample to C1 as stated: a conflicting write on the absent key
`"x"` (expected revision 1, stored revision 0) changes the result of
`keys()` from `[]` to `["x"]`. -/
theorem conflict_on_absent_key_changes_keys :
    ((Store.new Char).write "x" (some 1) 'a').1 = none ∧
    ((Store.new Char).write "x" (some 1) 'a').2.keys ≠ (Store.new Char).keys := by
  decide

/-- Claim C1 as amended: a conflicting `write`/`remove` (both run through
`set_key`) leaves `seq` unchanged and every key's `read` result and revision
unchanged; if the key was already present in the data map the store is
bit-identical; if the key was absent, the only change is the insertion of a
`(0, none)` placeholder entry for it, which `keys()` then includes. -/
theorem conflict_preserves_observations {T : Type} (s : Store T) (key : String)
    (rev : Option Nat) (v : Option T) (hs : KeySorted s.data)
    (h : (s.set_key key rev v).1 = none) :
    (s.set_key key rev v).2.seq = s.seq ∧
    (∀ k', (s.set_key key rev v).2.read k' = s.read k') ∧
    (∀ k', (s.set_key key rev v).2.revOf k' = s.revOf k') ∧
    ((alGet key s.data).isSome → (s.set_key key rev v).2 = s) ∧
    (alGet key s.data = none →
      (s.set_key key rev v).2.data = alSet key (0, none) s.data ∧
      key ∈ (s.set_key key rev v).2.keys) := by
  have hrev := set_key_fst_none_iff.mp h
  rw [set_key_of_ne hrev]
  refine ⟨rfl, ?_, ?_, ?_, ?_⟩
  · intro k'
    by_cases hk : k' = key
    · subst hk
      rw [Store.read, Store.read]
      cases hget : alGet k' s.data with
      | none => simp [alGet_alSet_self, hget]
      | some e => simp [alGet_alSet_self, hget]
    · rw [Store.read, Store.read]
      simp [alGet_alSet_ne hk]
  · intro k'
    by_cases hk : k' = key
    · subst hk
      rw [Store.revOf, Store.revOf]
      cases hget : alGet k' s.data with
      | none => simp [alGet_alSet_self, hget]
      | some e => simp [alGet_alSet_self, hget]
    · rw [Store.revOf, Store.revOf]
      simp [alGet_alSet_ne hk]
  · intro hsome
    obtain ⟨e, hget⟩ := Option.isSome_iff_exists.mp hsome
    cases s with
    | mk d q =>
      simp only at hget hs ⊢
      have h2 : (alGet key d).getD ((0 : Nat), (none : Option T)) = e := by
        rw [hget]; rfl
      rw [h2, alSet_self hs hget]
  · intro hnone
    constructor
    · simp [hnone]
    · simpa [Store.keys, hnone] using mem_keys_alSet key ((0 : Nat), (none : Option T)) s.data

/-- Witness for amended C1: a conflicting write of `"x"` (expected revision
5) against a store holding `"x"` at revision 1 changes no observation and
leaves the store bit-identical. -/
theorem conflict_preserves_observations_witness :
    ((((Store.new Char).write "x" none 'a').2.set_key "x" (some 5) (some 'b')).2.seq =
      (((Store.new Char).write "x" none 'a').2).seq) ∧
    ((((Store.new Char).write "x" none 'a').2.set_key "x" (some 5) (some 'b')).2.read "x" =
      (((Store.new Char).write "x" none 'a').2).read "x") ∧
    ((((Store.new Char).write "x" none 'a').2.set_key "x" (some 5) (some 'b')).2 =
      ((Store.new Char).write "x" none 'a').2) := by
  have H := conflict_preserves_observations (((Store.new Char).write "x" none 'a').2)
    "x" (some 5) (some 'b') (by decide) (by decide)
  exact ⟨H.1, H.2.1 "x", H.2.2.2.1 (by decide)⟩

/-! ### C6: `seq` and per-key revisions count successful mutations

A store lifetime is a list of mutating operations replayed from
`Store::new` (reads are pure and cannot change the store). -/

/-- One mutating store operation: a `Store::write` or a `Store::remove`. -/
inductive StoreOp (T : Type) where
  | write (key : String) (rev : Option Nat) (value : T)
  | remove (key : String) (rev : Option Nat)

/-- Execute one operation against a store. -/
def StoreOp.apply : StoreOp T → Store T → Option Nat × Store T
  | .write k rev v, s => s.write k rev v
  | .remove k rev, s => s.remove k rev

/-- The key an operation touches. -/
def StoreOp.key : StoreOp T → String
  | .write k _ _ => k
  | .remove k _ => k

/-- Replay a list of operations. -/
def runStoreOps (s : Store T) : List (StoreOp T) → Store T
  | [] => s
  | op :: rest => runStoreOps (op.apply s).2 rest

/-- The number of operations in the list that succeed (return a new
revision) when replayed from `s`. -/
def countSucc (s : Store T) : List (StoreOp T) → Nat
  | [] => 0
  | op :: rest => (if (op.apply s).1.isSome then 1 else 0) + countSucc (op.apply s).2 rest

/-- The number of operations on key `k` that succeed when replayed from `s`. -/
def countSuccKey (k : String) (s : Store T) : List (StoreOp T) → Nat
  | [] => 0
  | op :: rest =>
    (if (op.key = k ∧ (op.apply s).1.isSome) then 1 else 0) +
      countSuccKey k (op.apply s).2 rest

theorem seq_set_key (s : Store T) (key : String) (rev : Option Nat) (v : Option T) :
    (s.set_key key rev v).2.seq =
      s.seq + if (s.set_key key rev v).1.isSome then 1 else 0 := by
  by_cases h : s.revOf key = rev.getD 0
  · rw [set_key_of_eq h]; rfl
  · rw [set_key_of_ne h]; rfl

theorem revOf_set_key_self (s : Store T) (key : String) (rev : Option Nat) (v : Option T) :
    (s.set_key key rev v).2.revOf key =
      s.revOf key + if (s.set_key key rev v).1.isSome then 1 else 0 := by
  by_cases h : s.revOf key = rev.getD 0
  · rw [set_key_of_eq h]
    simp [Store.revOf, alGet_alSet_self]
  · rw [set_key_of_ne h]
    simp [Store.revOf, alGet_alSet_self]

theorem revOf_set_key_ne (s : Store T) {k key : String} (h : k ≠ key)
    (rev : Option Nat) (v : Option T) :
    (s.set_key key rev v).2.revOf k = s.revOf k := by
  by_cases hr : s.revOf key = rev.getD 0
  · rw [set_key_of_eq hr]
    simp [Store.revOf, alGet_alSet_ne h]
  · rw [set_key_of_ne hr]
    simp [Store.revOf, alGet_alSet_ne h]

theorem seq_apply (op : StoreOp T) (s : Store T) :
    (op.apply s).2.seq = s.seq + if (op.apply s).1.isSome then 1 else 0 := by
  cases op with
  | write k rev v => exact seq_set_key s k rev (some v)
  | remove k rev => exact seq_set_key s k rev none

theorem revOf_apply (op : StoreOp T) (s : Store T) (k : String) :
    (op.apply s).2.revOf k =
      s.revOf k + if (op.key = k ∧ (op.apply s).1.isSome) then 1 else 0 := by
  by_cases hk : op.key = k
  · subst hk
    cases op with
    | write key rev v => simpa using revOf_set_key_self s key rev (some v)
    | remove key rev => simpa using revOf_set_key_self s key rev none
  · have h2 : k ≠ op.key := Ne.symm hk
    cases op with
    | write key rev v => simpa [hk] using revOf_set_key_ne s h2 rev (some v)
    | remove key rev => simpa [hk] using revOf_set_key_ne s h2 rev none

theorem runStoreOps_seq (s : Store T) (ops : List (StoreOp T)) :
    (runStoreOps s ops).seq = s.seq + countSucc s ops := by
  induction ops generalizing s with
  | nil => simp [runStoreOps, countSucc]
  | cons op rest ih =>
    rw [runStoreOps, countSucc, ih, seq_apply]
    omega

theorem runStoreOps_revOf (s : Store T) (ops : List (StoreOp T)) (k : String) :
    (runStoreOps s ops).revOf k = s.revOf k + countSuccKey k s ops := by
  induction ops generalizing s with
  | nil => simp [runStoreOps, countSuccKey]
  | cons op rest ih =>
    rw [runStoreOps, countSuccKey, ih, revOf_apply]
    omega

/-- Claim C6: over every sequence of mutating operations replayed from
`Store::new`, `seq` equals the total number of successful mutations, and
each key's stored revision equals the number of successful mutations of
that key. -/
theorem seq_and_rev_count_mutations {T : Type} (ops : List (StoreOp T)) :
    (runStoreOps (Store.new T) ops).seq = countSucc (Store.new T) ops ∧
    ∀ k, (runStoreOps (Store.new T) ops).revOf k = countSuccKey k (Store.new T) ops := by
  constructor
  · simpa [Store.new] using runStoreOps_seq (Store.new T) ops
  · intro k
    simpa [Store.new, Store.revOf, alGet] using runStoreOps_revOf (Store.new T) ops k

/-! ### Cache lemmas -/

theorem read_of_record_none {T : Type} {c : Cache T} {key : String}
    (h : alGet key c.data = some none) (s : Store T) :
    c.read s key = (none, c) := by
  simp [Cache.read, h]

theorem read_none_record {T : Type} {c : Cache T} {s : Store T} {key : String}
    (h : (c.read s key).1 = none) :
    alGet key ((c.read s key).2).data = some none := by
  rw [Cache.read] at h ⊢
  cases halg : alGet key c.data with
  | some r =>
    cases r with
    | none => simp [halg]
    | some p =>
      obtain ⟨n, v⟩ := p
      simp [halg] at h
  | none =>
    cases hsr : s.read key with
    | none => simp [halg, hsr, alGet_alSet_self]
    | some p =>
      obtain ⟨n, v⟩ := p
      simp [halg, hsr, alGet_alSet_self] at h

/-! ### C8: read-after-write hits the local map, no store round-trip -/

/-- Claim C8: if `Cache::write(k, v)` returns ok, the local map holds the
new `(rev, v)` record, and a following `Cache::read(k)` returns `v` without
consulting the store: the read's result is the same whatever store is
current, and the cache is unchanged by it. -/
theorem write_ok_read_back {T : Type} (c : Cache T) (s : Store T) (key : String)
    (v : T) (h : (c.write s key v).1 = true) :
    (∃ r, alGet key ((c.write s key v).2.2).data = some (some (r, v))) ∧
    ∀ s₂ : Store T, (c.write s key v).2.2.read s₂ key = (some v, (c.write s key v).2.2) := by
  rcases hsw : s.write key (c.get_rev key) v with ⟨o, s'⟩
  cases o with
  | none => simp [Cache.write, hsw] at h
  | some newRev =>
    constructor
    · exact ⟨newRev, by simp [Cache.write, hsw, alGet_alSet_self]⟩
    · intro s₂
      simp [Cache.write, hsw, Cache.read, alGet_alSet_self]

/-- Witness for C8: after a fresh cache writes `'a'` to `"x"`, a read of
`"x"` against an unrelated (empty) store still answers `'a'` locally. -/
theorem write_ok_read_back_witness :
    ((Cache.new Char).write (Store.new Char) "x" 'a').2.2.read (Store.new Char) "x" =
      (some 'a', ((Cache.new Char).write (Store.new Char) "x" 'a').2.2) :=
  (write_ok_read_back (Cache.new Char) (Store.new Char) "x" 'a' (by decide)).2
    (Store.new Char)

/-! ### C9: a cached miss is sticky -/

/-- Claim C9: if `Cache::read(k)` returns none (recording a miss locally),
then after any successful write of `k` to the store by another party, a
later `Cache::read(k)` by this cache still returns none and leaves the
cache unchanged. -/
theorem cached_miss_sticky {T : Type} (c : Cache T) (s : Store T) (key : String)
    (h : (c.read s key).1 = none) :
    ∀ (s₁ : Store T) (rev : Option Nat) (v : T) (n : Nat) (s₂ : Store T),
      s₁.write key rev v = (some n, s₂) →
      ((c.read s key).2).read s₂ key = (none, (c.read s key).2) := by
  intro s₁ rev v n s₂ _
  exact read_of_record_none (read_none_record h) s₂

/-- Witness for C9: a miss on `"x"` recorded against the empty store still
reads as none after another party writes `"x"` successfully. -/
theorem cached_miss_sticky_witness :
    ((Cache.new Char).read (Store.new Char) "x").2.read
        ((Store.new Char).write "x" none 'a').2 "x" =
      (none, ((Cache.new Char).read (Store.new Char) "x").2) :=
  cached_miss_sticky (Cache.new Char) (Store.new Char) "x" (by decide)
    (Store.new Char) none 'a' 1 ((Store.new Char).write "x" none 'a').2 (by decide)

/-! ### C7: conflict evicts, the next read sees the store's ground truth -/

/-- Claim C7: if `Cache::write(k, v)` returns conflict, the key is evicted
from the local map, and the next `Cache::read(k)` fetches from the store:
it returns exactly the value component of the store's current entry (none
when `k` is absent or tombstoned there). -/
theorem write_conflict_evicts {T : Type} (c : Cache T) (s : Store T) (key : String)
    (v : T) (hc : KeySorted c.data) (h : (c.write s key v).1 = false) :
    alGet key ((c.write s key v).2.2).data = none ∧
    ∀ s₂ : Store T,
      ((c.write s key v).2.2.read s₂ key).1 = (s₂.read key).map Prod.snd := by
  rcases hsw : s.write key (c.get_rev key) v with ⟨o, s'⟩
  cases o with
  | some newRev => simp [Cache.write, hsw] at h
  | none =>
    constructor
    · simp [Cache.write, hsw, alGet_alRemove_self hc]
    · intro s₂
      cases hsr : s₂.read key with
      | none => simp [Cache.write, hsw, Cache.read, alGet_alRemove_self hc,
          alGet_alSet_self, hsr]
      | some p =>
        obtain ⟨n, w⟩ := p
        simp [Cache.write, hsw, Cache.read, alGet_alRemove_self hc,
          alGet_alSet_self, hsr]

/-- A store holding `"x"` at revision 1 with value `'a'`. -/
def oneStore : Store Char := ((Store.new Char).write "x" none 'a').2

/-- Witness for C7: a fresh cache's write of `"x"` against `oneStore`
conflicts (it presents revision 0 against stored revision 1); the key is
absent from the local map and the next read returns the store's value. -/
theorem write_conflict_evicts_witness :
    alGet "x" (((Cache.new Char).write oneStore "x" 'b').2.2).data = none ∧
    (((Cache.new Char).write oneStore "x" 'b').2.2.read oneStore "x").1 =
      (oneStore.read "x").map Prod.snd := by
  have H := write_conflict_evicts (Cache.new Char) oneStore "x" 'b'
    (by decide) (by decide)
  exact ⟨H.1, H.2 oneStore⟩

/-! ### C2: what a successful `Cache::remove` records locally

The claim says the cache installs `(new_rev, none)` and presents that
revision on the next write.  The local map's record type `Option (Rev, T)`
cannot hold a revision without a value: the code inserts the bare `none`,
`get_rev` then yields no revision, and the next write presents revision 0. -/

/-- A fresh cache writes `'a'` to `"x"` in an empty store (succeeds, rev 1). -/
def cacheWriteX : Bool × Store Char × Cache Char :=
  (Cache.new Char).write (Store.new Char) "x" 'a'

/-- The same cache then removes `"x"` (succeeds, tombstone at rev 2). -/
def cacheRemoveX : Bool × Store Char × Cache Char :=
  cacheWriteX.2.2.remove cacheWriteX.2.1 "x"

/-- Counterexample to C2 as stated: the remove succeeds and the store's
tombstone is at revision 2, yet the cache remembers no revision for `"x"`,
and the subsequent write by the same cache conflicts — it presented
revision 0, not the remembered revision 2 the claim promises. -/
theorem cache_remove_forgets_revision :
    cacheRemoveX.1 = true ∧
    cacheRemoveX.2.1.revOf "x" = 2 ∧
    cacheRemoveX.2.2.get_rev "x" = none ∧
    (cacheRemoveX.2.2.write cacheRemoveX.2.1 "x" 'b').1 = false := by
  decide

/-- Claim C2 as amended: when `Cache::remove(key)` succeeds, the cache
installs the bare tombstone record `none` (the record type cannot carry the
new revision), so `get_rev` yields no revision for the key and a subsequent
`Cache::write` of it presents revision 0 to the store. -/
theorem remove_ok_records_bare_tombstone {T : Type} (c : Cache T) (s : Store T)
    (key : String) (h : (c.remove s key).1 = true) :
    alGet key ((c.remove s key).2.2).data = some none ∧
    ((c.remove s key).2.2).get_rev key = none ∧
    ∀ (v : T) (s₂ : Store T),
      ((c.remove s key).2.2.write s₂ key v).1 = (s₂.write key none v).1.isSome ∧
      ((c.remove s key).2.2.write s₂ key v).2.1 = (s₂.write key none v).2 := by
  rcases hsr : s.remove key (c.get_rev key) with ⟨o, s'⟩
  cases o with
  | none => simp [Cache.remove, hsr] at h
  | some n =>
    have hrec : alGet key ((c.remove s key).2.2).data = some none := by
      simp [Cache.remove, hsr, alGet_alSet_self]
    have hgr : ((c.remove s key).2.2).get_rev key = none := by
      rw [Cache.get_rev, hrec]
    refine ⟨hrec, hgr, ?_⟩
    intro v s₂
    rcases hsw : s₂.write key none v with ⟨o₂, s₂'⟩
    cases o₂ with
    | none => simp [Cache.write, hgr, hsw]
    | some m => simp [Cache.write, hgr, hsw]

/-- Witness for amended C2, at the concrete remove of `cacheRemoveX`. -/
theorem remove_ok_records_bare_tombstone_witness :
    alGet "x" ((cacheWriteX.2.2.remove cacheWriteX.2.1 "x").2.2).data = some none ∧
    (cacheWriteX.2.2.remove cacheWriteX.2.1 "x").2.2.get_rev "x" = none := by
  have H := remove_ok_records_bare_tombstone cacheWriteX.2.2 cacheWriteX.2.1 "x"
    (by decide)
  exact ⟨H.1, H.2.1⟩

/-! ### C3: read-after-conflict recovery

The claim includes the case where the conflicting entry is a tombstone.
There it fails: the post-conflict read records a miss (the store's `read`
skips tombstones), so the retry presents revision 0 against the tombstone's
positive revision and conflicts again. -/

/-- A store whose entry for `"x"` is a tombstone at revision 2. -/
def tombStore : Store Char :=
  (((Store.new Char).write "x" none 'a').2.remove "x" (some 1)).2

/-- A fresh cache's conflicting write of `"x"` against the tombstone. -/
def tombConflict : Bool × Store Char × Cache Char :=
  (Cache.new Char).write tombStore "x" 'b'

/-- The post-conflict read of `"x"` (which records a miss). -/
def tombRetryRead : Option Char × Cache Char :=
  tombConflict.2.2.read tombConflict.2.1 "x"

/-- Counterexample to C3 as stated: against a tombstoned `"x"` the write
conflicts, and even though the cache then reads `"x"` and nothing else
mutates the store in between, the retried write conflicts again. -/
theorem conflict_retry_fails_on_tombstone :
    tombConflict.1 = false ∧
    (tombRetryRead.2.write tombConflict.2.1 "x" 'c').1 = false := by
  decide

/-- Claim C3 as amended: after `Cache::write(k, v₁)` returns conflict,
reading `k` and then writing `v₂` succeeds — with no other mutation of `k`
in between — provided the store's entry for `k` at the time of the conflict
is not a tombstone (its value is present, or its revision is 0, i.e. the
placeholder left by a conflicting write on an absent key). -/
theorem conflict_read_write_recovers {T : Type} (c : Cache T) (s : Store T)
    (key : String) (v₁ v₂ : T) (e : Entry T) (hc : KeySorted c.data)
    (h : (c.write s key v₁).1 = false)
    (hget : alGet key ((c.write s key v₁).2.1).data = some e)
    (hok : e.snd.isSome ∨ e.fst = 0) :
    (((c.write s key v₁).2.2.read (c.write s key v₁).2.1 key).2.write
        (c.write s key v₁).2.1 key v₂).1 = true := by
  rcases hsw : s.write key (c.get_rev key) v₁ with ⟨o, s'⟩
  cases o with
  | some n => simp [Cache.write, hsw] at h
  | none =>
    have hcw : c.write s key v₁ = (false, s', ⟨alRemove key c.data⟩) := by
      simp [Cache.write, hsw]
    rw [hcw] at hget ⊢
    simp only at hget ⊢
    have hrevOf : s'.revOf key = e.fst := by
      rw [Store.revOf, hget]
      rfl
    cases hval : e.snd with
    | some w =>
      have hsr : s'.read key = some (e.fst, w) := by
        rw [Store.read, hget]
        cases e
        simp_all
      have hread : (Cache.mk (alRemove key c.data) : Cache T).read s' key =
          (some w, ⟨alSet key (some (e.fst, w)) (alRemove key c.data)⟩) := by
        simp [Cache.read, alGet_alRemove_self hc, hsr, alGet_alSet_self]
      rw [hread]
      have hgr : (Cache.mk (alSet key (some (e.fst, w)) (alRemove key c.data)) :
          Cache T).get_rev key = some e.fst := by
        simp [Cache.get_rev, alGet_alSet_self]
      have hw2 : s'.write key (some e.fst) v₂ =
          (some (s'.revOf key + 1), ⟨alSet key (s'.revOf key + 1, some v₂) s'.data,
            s'.seq + 1⟩) :=
        set_key_of_eq (by simp [hrevOf])
      simp [Cache.write, hgr, hw2]
    | none =>
      have h0 : e.fst = 0 := by
        rcases hok with hok | hok
        · rw [hval] at hok
          simp at hok
        · exact hok
      have hsr : s'.read key = none := by
        rw [Store.read, hget]
        cases e
        simp_all
      have hread : (Cache.mk (alRemove key c.data) : Cache T).read s' key =
          (none, ⟨alSet key none (alRemove key c.data)⟩) := by
        simp [Cache.read, alGet_alRemove_self hc, hsr, alGet_alSet_self]
      rw [hread]
      have hgr : (Cache.mk (alSet key (none : Option (Nat × T))
          (alRemove key c.data)) : Cache T).get_rev key = none := by
        simp [Cache.get_rev, alGet_alSet_self]
      have hw2 : s'.write key none v₂ =
          (some (s'.revOf key + 1), ⟨alSet key (s'.revOf key + 1, some v₂) s'.data,
            s'.seq + 1⟩) :=
        set_key_of_eq (by simp [hrevOf, h0])
      simp [Cache.write, hgr, hw2]

/-- Witness for amended C3: against `oneStore` (`"x"` at revision 1, value
present) a fresh cache's write conflicts; reading then writing succeeds. -/
theorem conflict_read_write_recovers_witness :
    ((((Cache.new Char).write oneStore "x" 'b').2.2.read
        ((Cache.new Char).write oneStore "x" 'b').2.1 "x").2.write
        ((Cache.new Char).write oneStore "x" 'b').2.1 "x" 'c').1 = true :=
  conflict_read_write_recovers (Cache.new Char) oneStore "x" 'b' 'c'
    (1, some 'a') (by decide) (by decide) (by decide) (by decide)

/-! ### C4: a tombstoned key is immutable through any cache

A cache state is reachable by a trace of its own operations interleaved
with external store mutations (other caches or direct store access).  The
invariant: every `(rev, value)` record in the local map points at a store
entry whose revision is at least `rev`, and which still holds a value if
the revisions are equal.  Hence a cache can never present a tombstone's
revision, and `get_rev` yields none for miss and tombstone records, so
every write or remove of a tombstoned key presents a wrong revision. -/

/-- One step of a cache's life: an operation by this cache, or an external
mutation of the shared store by another party. -/
inductive CacheOp (T : Type) where
  | cread (key : String)
  | cwrite (key : String) (value : T)
  | cremove (key : String)
  | extWrite (key : String) (rev : Option Nat) (value : T)
  | extRemove (key : String) (rev : Option Nat)

/-- Execute one step against the shared store and the cache. -/
def execOp : Store T × Cache T → CacheOp T → Store T × Cache T
  | (s, c), .cread k => (s, (c.read s k).2)
  | (s, c), .cwrite k v => ((c.write s k v).2.1, (c.write s k v).2.2)
  | (s, c), .cremove k => ((c.remove s k).2.1, (c.remove s k).2.2)
  | (s, c), .extWrite k rev v => ((s.write k rev v).2, c)
  | (s, c), .extRemove k rev => ((s.remove k rev).2, c)

/-- Replay a trace of steps. -/
def runCacheOps : Store T × Cache T → List (CacheOp T) → Store T × Cache T
  | sc, [] => sc
  | sc, op :: rest => runCacheOps (execOp sc op) rest

/-- Every `(rev, value)` record in the cache's local map is backed by a
store entry: the entry exists, its revision is at least the recorded one,
and if the revisions coincide the entry still holds that value.  This is
the spec's "the cache never holds a revision newer than the Store's". -/
def RecordsConsistent (s : Store T) (c : Cache T) : Prop :=
  ∀ key r v, alGet key c.data = some (some (r, v)) →
    ∃ e, alGet key s.data = some e ∧ r ≤ e.fst ∧ (e.fst = r → e.snd = some v)

/-- The full cache-state invariant: a well-formed local map whose records
are consistent with the store. -/
def ConsistentWith (s : Store T) (c : Cache T) : Prop :=
  KeySorted c.data ∧ RecordsConsistent s c

theorem read_eq_some_iff {T : Type} {s : Store T} {key : String} {r : Nat} {w : T} :
    s.read key = some (r, w) ↔ alGet key s.data = some (r, some w) := by
  rw [Store.read]
  cases halg : alGet key s.data with
  | none => simp
  | some e =>
    obtain ⟨n, ov⟩ := e
    cases ov with
    | none => simp
    | some w' => simp

theorem get_rev_eq_some_iff {T : Type} {c : Cache T} {key : String} {r : Nat} :
    c.get_rev key = some r ↔ ∃ v, alGet key c.data = some (some (r, v)) := by
  rw [Cache.get_rev]
  cases halg : alGet key c.data with
  | none => simp
  | some rec1 =>
    cases rec1 with
    | none => simp
    | some p =>
      obtain ⟨n, v⟩ := p
      simp [eq_comm]

theorem RecordsConsistent.store_set_key {T : Type} {s : Store T} {c : Cache T}
    (h : RecordsConsistent s c) (k : String) (rev : Option Nat) (val : Option T) :
    RecordsConsistent (s.set_key k rev val).2 c := by
  intro key r v hrec
  obtain ⟨e, he, hle, hcnd⟩ := h key r v hrec
  by_cases hk : key = k
  · subst hk
    by_cases hcond : s.revOf key = rev.getD 0
    · rw [set_key_of_eq hcond]
      have hrev : s.revOf key = e.fst := by rw [Store.revOf, he]; rfl
      refine ⟨(s.revOf key + 1, val), by simp [alGet_alSet_self], ?_, ?_⟩
      · simp only [hrev]
        omega
      · intro hcontra
        simp only [hrev] at hcontra
        omega
    · rw [set_key_of_ne hcond]
      refine ⟨e, ?_, hle, hcnd⟩
      have hentry : (alGet key s.data).getD ((0 : Nat), (none : Option T)) = e := by
        rw [he]; rfl
      simp [hentry, alGet_alSet_self]
  · by_cases hcond : s.revOf k = rev.getD 0
    · rw [set_key_of_eq hcond]
      exact ⟨e, by simpa [alGet_alSet_ne hk] using he, hle, hcnd⟩
    · rw [set_key_of_ne hcond]
      exact ⟨e, by simpa [alGet_alSet_ne hk] using he, hle, hcnd⟩

theorem RecordsConsistent.evict {T : Type} {s : Store T} {c : Cache T}
    (h : RecordsConsistent s c) (hc : KeySorted c.data) (k : String) :
    RecordsConsistent s ⟨alRemove k c.data⟩ := by
  intro key r v hrec
  by_cases hk : key = k
  · subst hk
    rw [alGet_alRemove_self hc] at hrec
    exact absurd hrec (by simp)
  · rw [alGet_alRemove_ne hk] at hrec
    exact h key r v hrec

theorem consistent_execOp {T : Type} {s : Store T} {c : Cache T}
    (h : ConsistentWith s c) (op : CacheOp T) :
    ConsistentWith (execOp (s, c) op).1 (execOp (s, c) op).2 := by
  obtain ⟨hsorted, hrc⟩ := h
  cases op with
  | cread k =>
    rw [execOp]
    by_cases hhit : (alGet k c.data).isSome
    · have : (c.read s k).2 = c := by
        rw [Cache.read]
        simp only [if_pos hhit]
        cases halg : alGet k c.data with
        | none => simp [halg] at hhit
        | some rec1 =>
          cases rec1 with
          | none => simp [halg]
          | some p => obtain ⟨n, w⟩ := p; simp [halg]
      rw [this]
      exact ⟨hsorted, hrc⟩
    · have hc2 : (c.read s k).2 = ⟨alSet k (s.read k) c.data⟩ := by
        rw [Cache.read]
        simp only [if_neg hhit]
        cases hsr : s.read k with
        | none => simp [alGet_alSet_self]
        | some p => obtain ⟨n, w⟩ := p; simp [alGet_alSet_self]
      rw [hc2]
      refine ⟨hsorted.alSet k (s.read k), ?_⟩
      intro key r v hrec
      by_cases hk : key = k
      · subst hk
        rw [alGet_alSet_self] at hrec
        injection hrec with hrec
        have := read_eq_some_iff.mp hrec
        exact ⟨(r, some v), this, le_refl r, fun _ => rfl⟩
      · rw [alGet_alSet_ne hk] at hrec
        exact hrc key r v hrec
  | cwrite k v =>
    rw [execOp]
    by_cases hcond : s.revOf k = (c.get_rev k).getD 0
    · have hw : s.write k (c.get_rev k) v =
          (some (s.revOf k + 1), ⟨alSet k (s.revOf k + 1, some v) s.data, s.seq + 1⟩) :=
        set_key_of_eq hcond
      have hcw : c.write s k v = (true,
          ⟨alSet k (s.revOf k + 1, some v) s.data, s.seq + 1⟩,
          ⟨alSet k (some (s.revOf k + 1, v)) c.data⟩) := by
        rw [Cache.write, hw]
      rw [hcw]
      refine ⟨hsorted.alSet k _, ?_⟩
      intro key r w hrec
      by_cases hk : key = k
      · subst hk
        rw [alGet_alSet_self] at hrec
        simp only [Option.some.injEq, Prod.mk.injEq] at hrec
        obtain ⟨hr, hwv⟩ := hrec
        refine ⟨(s.revOf key + 1, some v), by simp [alGet_alSet_self], by omega, ?_⟩
        intro _
        rw [hwv]
      · rw [alGet_alSet_ne hk] at hrec
        obtain ⟨e, he, hle, hcnd⟩ := hrc key r w hrec
        exact ⟨e, by simpa [alGet_alSet_ne hk] using he, hle, hcnd⟩
    · have hw : s.write k (c.get_rev k) v =
          (none, ⟨alSet k ((alGet k s.data).getD (0, none)) s.data, s.seq⟩) :=
        set_key_of_ne hcond
      have hcw : c.write s k v = (false,
          ⟨alSet k ((alGet k s.data).getD (0, none)) s.data, s.seq⟩,
          ⟨alRemove k c.data⟩) := by
        rw [Cache.write, hw]
      rw [hcw]
      refine ⟨hsorted.alRemove k, ?_⟩
      have h1 := hrc.store_set_key k (c.get_rev k) (some v)
      rw [set_key_of_ne hcond] at h1
      exact h1.evict hsorted k
  | cremove k =>
    rw [execOp]
    by_cases hcond : s.revOf k = (c.get_rev k).getD 0
    · have hw : s.remove k (c.get_rev k) =
          (some (s.revOf k + 1), ⟨alSet k (s.revOf k + 1, none) s.data, s.seq + 1⟩) :=
        set_key_of_eq hcond
      have hcr : c.remove s k = (true,
          ⟨alSet k (s.revOf k + 1, none) s.data, s.seq + 1⟩,
          ⟨alSet k none c.data⟩) := by
        rw [Cache.remove, hw]
      rw [hcr]
      refine ⟨hsorted.alSet k none, ?_⟩
      intro key r w hrec
      by_cases hk : key = k
      · subst hk
        rw [alGet_alSet_self] at hrec
        simp at hrec
      · rw [alGet_alSet_ne hk] at hrec
        obtain ⟨e, he, hle, hcnd⟩ := hrc key r w hrec
        exact ⟨e, by simpa [alGet_alSet_ne hk] using he, hle, hcnd⟩
    · have hw : s.remove k (c.get_rev k) =
          (none, ⟨alSet k ((alGet k s.data).getD (0, none)) s.data, s.seq⟩) :=
        set_key_of_ne hcond
      have hcr : c.remove s k = (false,
          ⟨alSet k ((alGet k s.data).getD (0, none)) s.data, s.seq⟩,
          ⟨alRemove k c.data⟩) := by
        rw [Cache.remove, hw]
      rw [hcr]
      refine ⟨hsorted.alRemove k, ?_⟩
      have h1 := hrc.store_set_key k (c.get_rev k) (none : Option T)
      rw [set_key_of_ne hcond] at h1
      exact h1.evict hsorted k
  | extWrite k rev v =>
    rw [execOp]
    cases hw : s.write k rev v with
    | mk o s' =>
      refine ⟨hsorted, ?_⟩
      have := hrc.store_set_key k rev (some v)
      rw [Store.write] at hw
      rw [hw] at this
      exact this
  | extRemove k rev =>
    rw [execOp]
    cases hw : s.remove k rev with
    | mk o s' =>
      refine ⟨hsorted, ?_⟩
      have := hrc.store_set_key k rev (none : Option T)
      rw [Store.remove] at hw
      rw [hw] at this
      exact this

theorem consistent_new {T : Type} (s : Store T) : ConsistentWith s (Cache.new T) :=
  ⟨List.Pairwise.nil, fun key r v h => by simp [Cache.new, alGet] at h⟩

theorem consistent_runCacheOps {T : Type} (sc : Store T × Cache T)
    (h : ConsistentWith sc.1 sc.2) (ops : List (CacheOp T)) :
    ConsistentWith (runCacheOps sc ops).1 (runCacheOps sc ops).2 := by
  induction ops generalizing sc with
  | nil => exact h
  | cons op rest ih =>
    obtain ⟨s, c⟩ := sc
    rw [runCacheOps]
    exact ih (execOp (s, c) op) (consistent_execOp h op)

theorem tomb_set_key_conflict {T : Type} {s : Store T} {c : Cache T} {key : String}
    {t : Nat} (hcons : ConsistentWith s c) (htomb : alGet key s.data = some (t, none))
    (hpos : 1 ≤ t) (val : Option T) :
    (s.set_key key (c.get_rev key) val).1 = none := by
  rw [set_key_fst_none_iff]
  have hrev : s.revOf key = t := by rw [Store.revOf, htomb]; rfl
  cases hgr : c.get_rev key with
  | none =>
    rw [hrev]
    simp only [Option.getD_none]
    omega
  | some r =>
    obtain ⟨v0, hrec⟩ := get_rev_eq_some_iff.mp hgr
    obtain ⟨e, he, hle, hcnd⟩ := hcons.2 key r v0 hrec
    rw [htomb, Option.some.injEq] at he
    subst he
    have htr : t ≠ r := by
      intro heq
      have := hcnd heq
      simp at this
    rw [hrev]
    simpa using htr

/-- Claim C4: whenever the shared store's entry for a key is a tombstone
(revision at least 1, value absent), every `Cache::write` and
`Cache::remove` of that key through a cache reachable by any trace of its
own operations and external store mutations returns conflict — the cache
can present neither the tombstone's revision (its records never name a
tombstone revision) nor any other matching one, and `get_rev` yields none
for a recorded miss or tombstone, making it present revision 0.  So a
tombstoned key can never be overwritten or re-removed through a cache,
even by the client that created the tombstone. -/
theorem tombstoned_key_immutable_via_cache {T : Type} (s₀ : Store T)
    (ops : List (CacheOp T)) (key : String) (t : Nat) (v : T)
    (htomb : alGet key ((runCacheOps (s₀, Cache.new T) ops).1).data = some (t, none))
    (hpos : 1 ≤ t) :
    ((runCacheOps (s₀, Cache.new T) ops).2.write
        (runCacheOps (s₀, Cache.new T) ops).1 key v).1 = false ∧
    ((runCacheOps (s₀, Cache.new T) ops).2.remove
        (runCacheOps (s₀, Cache.new T) ops).1 key).1 = false := by
  have hcons := consistent_runCacheOps (s₀, Cache.new T) ⟨by
    exact (consistent_new s₀).1, (consistent_new s₀).2⟩ ops
  rcases hrun : runCacheOps (s₀, Cache.new T) ops with ⟨s, c⟩
  rw [hrun] at htomb hcons
  simp only at htomb hcons ⊢
  constructor
  · rcases hsw : s.write key (c.get_rev key) v with ⟨o, s'⟩
    have ho : o = none := by
      have := tomb_set_key_conflict hcons htomb hpos (some v)
      rw [Store.write] at hsw
      rw [hsw] at this
      exact this
    subst ho
    simp [Cache.write, hsw]
  · rcases hsw : s.remove key (c.get_rev key) with ⟨o, s'⟩
    have ho : o = none := by
      have := tomb_set_key_conflict hcons htomb hpos none
      rw [Store.remove] at hsw
      rw [hsw] at this
      exact this
    subst ho
    simp [Cache.remove, hsw]

/-- Witness for C4: a cache writes `"x"` then removes it (creating the
tombstone at revision 2); its next write and remove of `"x"` conflict. -/
theorem tombstoned_key_immutable_via_cache_witness :
    ((runCacheOps (Store.new Char, Cache.new Char)
        [CacheOp.cwrite "x" 'a', CacheOp.cremove "x"]).2.write
      (runCacheOps (Store.new Char, Cache.new Char)
        [CacheOp.cwrite "x" 'a', CacheOp.cremove "x"]).1 "x" 'b').1 = false ∧
    ((runCacheOps (Store.new Char, Cache.new Char)
        [CacheOp.cwrite "x" 'a', CacheOp.cremove "x"]).2.remove
      (runCacheOps (Store.new Char, Cache.new Char)
        [CacheOp.cwrite "x" 'a', CacheOp.cremove "x"]).1 "x").1 = false :=
  tombstoned_key_immutable_via_cache (Store.new Char)
    [CacheOp.cwrite "x" 'a', CacheOp.cremove "x"] "x" 2 'b' (by decide) (by decide)

/-! ### C5: result aggregation in `RunnerScenario::check_execution`

From `src/runner.rs`.  The domain-specific parts (`Actor::dispatch`, the
invariant `Checker::check`) live outside the store/runner sources and enter
as opaque function parameters; the worker loop and the join loop are
modelled exactly.  Workers race on the plan queue, so each worker's claimed
`(ordinal, plan)` list is arbitrary. -/

/-- `TestResult` from `src/runner.rs`. -/
inductive TestResult (S P : Type) where
  | pass (count : Nat)
  | fail (count : Nat) (errors : List String) (state : S) (plan : P) (step : Nat)
deriving DecidableEq

/-- `TestResult::is_pass`. -/
def TestResult.is_pass : TestResult S P → Bool
  | .pass _ => true
  | .fail .. => false

/-- `TestResult::count`. -/
def TestResult.count : TestResult S P → Nat
  | .pass c => c
  | .fail c .. => c

/-- The worker's inner loop over one plan: dispatch each act in order and
run the checker after every dispatch; the first failing check yields its
messages, the state at that moment and the failing step index. -/
def runActs (dispatch : S → A → S) (check : S → Option (List String)) :
    Nat → S → List A → Option (List String × S × Nat)
  | _, _, [] => none
  | i, st, a :: rest =>
    match check (dispatch st a) with
    | some errors => some (errors, dispatch st a, i)
    | none => runActs dispatch check (i + 1) (dispatch st a) rest

/-- The worker's outer loop: claim plans in order; replay each against a
clone of the baseline store; return the `Fail` immediately on a failing
check, otherwise keep `Pass { count = ordinal + 1 }` and continue. -/
def workerLoop (dispatch : S → A → S) (check : S → Option (List String)) (store : S) :
    TestResult S (List A) → List (Nat × List A) → TestResult S (List A)
  | result, [] => result
  | _, (n, plan) :: rest =>
    match runActs dispatch check 0 store plan with
    | some (errors, st, i) => .fail (n + 1) errors st plan i
    | none => workerLoop dispatch check store (.pass (n + 1)) rest

/-- The join loop: inspect worker results in spawn order; return the first
`Fail`; otherwise keep the largest pass count, starting from `Pass 0`. -/
def joinWorkers : TestResult S P → List (TestResult S P) → TestResult S P
  | result, [] => result
  | result, r :: rest =>
    if r.is_pass then
      joinWorkers (if r.count > result.count then r else result) rest
    else r

theorem joinWorkers_first_fail {S P : Type} (acc : TestResult S P)
    (rs : List (TestResult S P)) (r : TestResult S P)
    (h : rs.find? (fun x => ! x.is_pass) = some r) :
    joinWorkers acc rs = r := by
  induction rs generalizing acc with
  | nil => simp [List.find?] at h
  | cons x rest ih =>
    rw [List.find?] at h
    cases hx : x.is_pass with
    | true =>
      rw [hx] at h
      simp only [Bool.not_true] at h
      rw [joinWorkers, if_pos hx]
      exact ih _ h
    | false =>
      rw [hx] at h
      simp only [Bool.not_false] at h
      injection h with h
      rw [joinWorkers, if_neg (by simp [hx])]
      exact h

theorem joinWorkers_all_pass {S P : Type} (m : Nat) (rs : List (TestResult S P))
    (h : ∀ r ∈ rs, r.is_pass = true) :
    joinWorkers (.pass m) rs = .pass (rs.foldl (fun acc x => max acc x.count) m) := by
  induction rs generalizing m with
  | nil => rfl
  | cons x rest ih =>
    have hx : x.is_pass = true := h x (List.mem_cons_self x rest)
    cases x with
    | fail c errors st plan i => simp [TestResult.is_pass] at hx
    | pass c =>
      rw [joinWorkers, if_pos hx]
      have hsel : (if (TestResult.pass c : TestResult S P).count >
          (TestResult.pass m : TestResult S P).count then
            (TestResult.pass c : TestResult S P) else .pass m) = .pass (max m c) := by
        by_cases hcm : c > m
        · rw [if_pos (by simpa [TestResult.count] using hcm)]
          rw [Nat.max_eq_right (Nat.le_of_lt hcm)]
        · rw [if_neg (by simpa [TestResult.count] using hcm)]
          rw [Nat.max_eq_left (Nat.not_lt.mp hcm)]
      rw [hsel, ih (max m c) (fun r hr => h r (List.mem_cons_of_mem _ hr))]
      simp [TestResult.count]

theorem workerLoop_all_pass {S A : Type} (dispatch : S → A → S)
    (check : S → Option (List String)) (store : S) (front : List (Nat × List A))
    (n : Nat) (plan : List A) (m : Nat)
    (h : ∀ p ∈ front ++ [(n, plan)], runActs dispatch check 0 store p.2 = none) :
    workerLoop dispatch check store (.pass m) (front ++ [(n, plan)]) = .pass (n + 1) := by
  induction front generalizing m with
  | nil =>
    rw [List.nil_append, workerLoop, h (n, plan) (by simp)]
    rfl
  | cons q rest ih =>
    obtain ⟨n0, p0⟩ := q
    rw [List.cons_append, workerLoop,
      h (n0, p0) (List.mem_cons_self _ _)]
    exact ih (n0 + 1) (fun p hp => h p (List.mem_cons_of_mem _ hp))

/-- Claim C5: `check_execution`'s aggregation.  (a) If some worker
returned `Fail`, the scenario result is the `Fail` of the earliest such
worker in spawn order.  (b) If all workers passed, the result is `Pass`
with the maximum worker count.  (c) A worker whose claimed plans all pass
every check returns `Pass { count = last claimed ordinal + 1 }`. -/
theorem check_execution_aggregation {S P A : Type} :
    (∀ (rs : List (TestResult S P)) (r : TestResult S P),
      rs.find? (fun x => ! x.is_pass) = some r →
      joinWorkers (.pass 0) rs = r) ∧
    (∀ rs : List (TestResult S P), (∀ r ∈ rs, r.is_pass = true) →
      joinWorkers (.pass 0) rs = .pass (rs.foldl (fun acc x => max acc x.count) 0)) ∧
    (∀ (dispatch : S → A → S) (check : S → Option (List String)) (store : S)
      (front : List (Nat × List A)) (n : Nat) (plan : List A),
      (∀ p ∈ front ++ [(n, plan)], runActs dispatch check 0 store p.2 = none) →
      workerLoop dispatch check store (.pass 0) (front ++ [(n, plan)]) = .pass (n + 1)) :=
  ⟨fun rs r h => joinWorkers_first_fail (.pass 0) rs r h,
   fun rs h => joinWorkers_all_pass 0 rs h,
   fun dispatch check store front n plan h =>
     workerLoop_all_pass dispatch check store front n plan 0 h⟩

/-- Witness for C5 at concrete data: a fail among the workers wins over
later results; all-pass yields the maximum count; an all-pass worker
reports its last ordinal plus one. -/
theorem check_execution_aggregation_witness :
    joinWorkers (.pass 0) [TestResult.pass 2,
        TestResult.fail 1 ["bad"] (0 : Nat) (7 : Nat) 0,
        TestResult.fail 9 [] 0 8 1] =
      TestResult.fail 1 ["bad"] (0 : Nat) (7 : Nat) 0 ∧
    joinWorkers (.pass 0) [TestResult.pass 2, TestResult.pass 5,
        (TestResult.pass 3 : TestResult Nat Nat)] = TestResult.pass 5 ∧
    workerLoop (fun s a => s + a) (fun _ => none) (0 : Nat) (.pass 0)
        [(0, [1]), (1, [2])] = TestResult.pass 2 := by
  refine ⟨(check_execution_aggregation (S := Nat) (P := Nat) (A := Nat)).1 _ _
    (by decide), ?_, ?_⟩
  · have H := (check_execution_aggregation (S := Nat) (P := Nat) (A := Nat)).2.1
      [TestResult.pass 2, TestResult.pass 5, (TestResult.pass 3 : TestResult Nat Nat)]
      (by decide)
    simpa using H
  · have H := (check_execution_aggregation (S := Nat) (P := Nat) (A := Nat)).2.2
      (fun s a => s + a) (fun _ => none) 0 [(0, [1])] 1 [2] (by
        intro p hp
        simp only [List.cons_append, List.nil_append, List.mem_cons,
          List.not_mem_nil, or_false] at hp
        rcases hp with rfl | rfl
        · rfl
        · rfl)
    simpa using H

end MC2
